import Mathlib

/-!
Shallow embedding of the `cobe` Markov-chain brain (`brain.go`) and proofs
about its chain/edge builder, learner, constructor and reply selector.

Conventions of the embedding:
* Go `tokenID` (a signed integer) is `Int`; the out-of-band space marker is
  `spaceTokenID = -1` as in the source.
* Go slices are Lean lists; `tokens[i : i+order]` is `(tokens.drop i).take order`.
  Slicing past the end of the data (`tokens[0:order]` when the compacted
  stream is shorter than `order`) is a Go panic; functions that can hit it
  return `Option`, with `none` standing for the panic.
* The graph store, tokenizer and scorer are external collaborators; where a
  definition needs one of their results it takes that result as a parameter,
  and store operations used by `Learn` are modelled as pure state transformers
  over an explicit `Graph` record.
-/

namespace Cobe

abbrev tokenID := Int

/-- Sentinel id interleaved after a content token to mark a following space,
`spaceTokenID` in brain.go. -/
def spaceTokenID : tokenID := -1

/-- Directed n-gram transition, `edge` in brain.go: `prev` and `next` are the
two overlapping windows and `hasSpace` tells whether a space separates the
boundary tokens. -/
structure Edge where
  prev : List tokenID
  next : List tokenID
  hasSpace : Bool
deriving Repr, DecidableEq

/-- Compaction loop of `toEdges` (brain.go:144-151): walk the raw stream,
append the current entry to `tokens`, and when the following entry is the
space sentinel record the current length of `tokens` in `spaces` and skip
that sentinel.  Returns the accumulated `(tokens, spaces)`. -/
def compactGo : List tokenID → List Nat → List tokenID → List tokenID × List Nat
  | acc, spaces, [] => (acc, spaces)
  | acc, spaces, [t] => (acc ++ [t], spaces)
  | acc, spaces, t :: s :: rest =>
    if s = spaceTokenID then
      compactGo (acc ++ [t]) (spaces ++ [acc.length + 1]) rest
    else
      compactGo (acc ++ [t]) spaces (s :: rest)

/-- Compacted token stream of an input, first component of the loop above. -/
def compactTokens (tokenIds : List tokenID) : List tokenID :=
  (compactGo [] [] tokenIds).1

/-- Recorded space positions of an input, second component of the loop. -/
def compactSpaces (tokenIds : List tokenID) : List Nat :=
  (compactGo [] [] tokenIds).2

/-- Go slice `tokens[i : i+order]`. -/
def window (tokens : List tokenID) (i order : Nat) : List tokenID :=
  (tokens.drop i).take order

/-- Sliding-window loop of `toEdges` (brain.go:156-167): one iteration per
remaining `fuel`, starting at index `i` with the previous window `prev` and
the pending space positions `spaces`; a space position equal to the index of
the last element of `next` is consumed and sets `hasSpace`. -/
def edgeLoop (order : Nat) (tokens : List tokenID) :
    Nat → Nat → List Nat → List tokenID → List Edge
  | 0, _, _, _ => []
  | fuel + 1, i, spaces, prev =>
    let next := window tokens i order
    match spaces with
    | [] => ⟨prev, next, false⟩ :: edgeLoop order tokens fuel (i + 1) [] next
    | s :: rest =>
      if s = i + order - 1 then
        ⟨prev, next, true⟩ :: edgeLoop order tokens fuel (i + 1) rest next
      else
        ⟨prev, next, false⟩ :: edgeLoop order tokens fuel (i + 1) (s :: rest) next

/-- `toEdges` (brain.go:136-170): compact the stream, then slide a window of
width `order` across it.  The initial slice `tokens[0:order]` is out of range
when the compacted stream is shorter than `order`; that Go panic is `none`
here.  The Go loop runs for `i = 1 .. len(tokens)-order`, i.e.
`len(tokens) - order` iterations. -/
def toEdges (order : Nat) (tokenIds : List tokenID) : Option (List Edge) :=
  let tokens := compactTokens tokenIds
  if order ≤ tokens.length then
    some (edgeLoop order tokens (tokens.length - order) 1 (compactSpaces tokenIds)
      (window tokens 0 order))
  else
    none

/-- `toChain` (brain.go:115-128): pad the id sequence with `order` copies of
the store's end-of-context sentinel on both ends. -/
def toChain (order : Nat) (endTokenID : tokenID) (tokenIds : List tokenID) :
    List tokenID :=
  List.replicate order endTokenID ++ tokenIds ++ List.replicate order endTokenID

/-- Input stream with every space sentinel removed. -/
def removeSpaces (ids : List tokenID) : List tokenID :=
  ids.filter (fun t => decide (t ≠ spaceTokenID))

/-- Helper for `wellSpaced`: scan the stream remembering whether the previous
entry was a content token; a space sentinel is admissible only right after a
content token. -/
def wellSpacedFrom : Bool → List tokenID → Bool
  | _, [] => true
  | prevContent, t :: rest =>
    if t = spaceTokenID then prevContent && wellSpacedFrom false rest
    else wellSpacedFrom true rest

/-- Streams in which every space sentinel immediately follows a content
token: no leading sentinel and no two adjacent sentinels.  This is the shape
the spec ascribes to tokenizer output ("the input stream interleaves the
space sentinel immediately after a content token"). -/
def wellSpaced (ids : List tokenID) : Bool := wellSpacedFrom false ids

/-- `uniqueIds` (brain.go:296-309) sends ids through a Go map, whose
iteration order is nondeterministic; `dedup` realizes one admissible order.
Only emptiness of the result matters to the theorems below. -/
def uniqueIds (ids : List tokenID) : List tokenID := ids.dedup

/-- `babble` (brain.go:228-239), parametric in the five `getRandomToken`
results: keep the draws with a valid (positive) id. -/
def babble (draws : List tokenID) : List tokenID :=
  (draws.take 5).filter (fun t => decide (0 < t))

/-- `pickPivot` (brain.go:277-279): a uniformly random element of the
candidate list, the draw modelled by an oracle `r` reduced modulo the
length.  On an empty list the source calls `rand.Intn(0)`, which is a Go
panic: `none` here. -/
def pickPivot (tokenIds : List tokenID) (r : Nat) : Option tokenID :=
  if tokenIds.isEmpty then none
  else tokenIds.get? (r % tokenIds.length)

/-- Pivot-candidate derivation of `Reply` (brain.go:172-180), parametric in
the collaborator results: the store's `filterPivots` output, the
stem-conflation output and the babble draws. -/
def replyCandidates (pivots stems babbleDraws : List tokenID) : List tokenID :=
  let ids := uniqueIds (pivots ++ stems)
  if ids.isEmpty then babble babbleDraws else ids

/-- Selection loop of `Reply` (brain.go:185-207), parametric in the sequence
of iteration outcomes the deadline allows: `none` is an exhausted search
(the loop restarts the search, scoring nothing), `some s` a scored
candidate.  Scores are rationals, exact for every finite float64; `i` is the
iteration index, `best` the index of the best-seen reply and `bs` the best
score, which the source initializes to -1 and replaces only on a strictly
greater score. -/
def replyLoopAux : List (Option ℚ) → Nat → Option Nat → ℚ → Option Nat
  | [], _, best, _ => best
  | none :: rest, i, best, bs => replyLoopAux rest (i + 1) best bs
  | some s :: rest, i, best, bs =>
    if bs < s then replyLoopAux rest (i + 1) (some i) s
    else replyLoopAux rest (i + 1) best bs

/-- Index of the candidate whose text `Reply` returns; `none` is the fixed
"no replies" sentinel (brain.go:210-214). -/
def replyLoop (iters : List (Option ℚ)) : Option Nat :=
  replyLoopAux iters 0 none (-1)

/-- Weighted directed edge record of the graph store. -/
structure GEdge where
  prevNode : Nat
  nextNode : Nat
  hasSpace : Bool
  weight : Nat
deriving Repr, DecidableEq

/-- Modelled from the spec: the graph store's state visible to the learner —
vocabulary tokens, order-width nodes and weighted edges (the storage layer
itself is not under src/, §6 of the spec gives its capabilities).  Ids are
1-based positions, so 0 is the "no node yet" zero value of Go's `nodeID`. -/
structure Graph where
  order : Nat
  endTokenID : tokenID
  tokens : List String
  nodes : List (List tokenID)
  edges : List GEdge
deriving Repr, DecidableEq

/-- Modelled from the spec: `getOrCreateToken` — resolve a word to a
persistent token id, creating it if absent. -/
def getOrCreateToken (g : Graph) (text : String) : tokenID × Graph :=
  match g.tokens.findIdx? (fun t => t == text) with
  | some i => ((i : Int) + 1, g)
  | none => ((g.tokens.length : Int) + 1, { g with tokens := g.tokens ++ [text] })

/-- Modelled from the spec: `GetOrCreateNode` — resolve an order-width token
sequence to a node id, creating it if absent. -/
def getOrCreateNode (g : Graph) (tids : List tokenID) : Nat × Graph :=
  match g.nodes.findIdx? (fun x => x == tids) with
  | some i => (i + 1, g)
  | none => (g.nodes.length + 1, { g with nodes := g.nodes ++ [tids] })

/-- Modelled from the spec: `addEdge` — create a directed, flagged edge with
weight 1, or increment the weight of the existing identical edge. -/
def addEdge (g : Graph) (p q : Nat) (hasSpace : Bool) : Graph :=
  if g.edges.any (fun e => e.prevNode == p && e.nextNode == q && e.hasSpace == hasSpace) then
    { g with edges := g.edges.map (fun e =>
        if e.prevNode == p && e.nextNode == q && e.hasSpace == hasSpace then
          { e with weight := e.weight + 1 }
        else e) }
  else
    { g with edges := g.edges ++ [⟨p, q, hasSpace, 1⟩] }

/-- `countGoodTokens` (brain.go:92-101): number of non-space tokens. -/
def countGoodTokens : List String → Nat
  | [] => 0
  | t :: rest => (if t = " " then 0 else 1) + countGoodTokens rest

/-- Id-resolution loop of `Learn` (brain.go:68-78): a space token maps to the
space sentinel, any other token is resolved (create-if-absent) through the
store. -/
def resolveTokenIds : Graph → List String → List tokenID × Graph
  | g, [] => ([], g)
  | g, t :: rest =>
    let r := if t = " " then (spaceTokenID, g) else getOrCreateToken g t
    let rec2 := resolveTokenIds r.2 rest
    (r.1 :: rec2.1, rec2.2)

/-- Edge-application loop of `Learn` (brain.go:80-89): resolve the `prev`
node only while none is held (`prevNode = 0`), resolve the `next` node, add
or increment the edge, and carry `next` forward. -/
def learnEdges : Graph → Nat → List Edge → Graph
  | g, _, [] => g
  | g, prevNode, e :: rest =>
    let p := if prevNode = 0 then getOrCreateNode g e.prev else (prevNode, g)
    let q := getOrCreateNode p.2 e.next
    learnEdges (addEdge q.2 p.1 q.1 e.hasSpace) q.1 rest

/-- `Learn` (brain.go:60-90), parametric in the tokenizer's `Split` output:
skip any input with at most `order` non-space tokens, otherwise resolve ids,
build the padded chain, derive the edges and apply the node/edge mutations.
The `none` branch of `toEdges` cannot arise from a padded chain and returns
the state left by id resolution. -/
def Learn (g : Graph) (tokens : List String) : Graph :=
  if countGoodTokens tokens ≤ g.order then g
  else
    let r := resolveTokenIds g tokens
    match toEdges r.2.order (toChain r.2.order r.2.endTokenID r.1) with
    | none => r.2
    | some es => learnEdges r.2 0 es

/-- Tokenizer capabilities known to `getTokenizer` (brain.go:49-58). -/
inductive Tok where
  | cobe
  | megahal
deriving Repr, DecidableEq

/-- Lowercasing as Go's `strings.ToLower` performs it on the ASCII names
compared against here. -/
def lowerString (s : String) : String := ⟨s.data.map Char.toLower⟩

/-- `getTokenizer` (brain.go:49-58): case-insensitive lookup of a tokenizer
capability; an unrecognized name yields `none` (Go returns nil). -/
def getTokenizer (name : String) : Option Tok :=
  if lowerString name = "cobe" then some Tok.cobe
  else if lowerString name = "megahal" then some Tok.megahal
  else none

/-- Brain record as far as construction is concerned: the selected tokenizer
capability, `none` modelling Go's nil tokenizer. -/
structure BrainM where
  tok : Option Tok
deriving Repr, DecidableEq

/-- Boolean success test for `Except`. -/
def exceptOk {ε α : Type} : Except ε α → Bool
  | .ok _ => true
  | .error _ => false

/-- `OpenBrain` (brain.go:19-40), parametric in the collaborator results:
`openRes` for `openGraph`, `versionRes` and `tokRes` for the two
`GetInfoString` reads.  Collaborator errors propagate, any version other
than "2" is rejected, and the brain is built with the looked-up tokenizer
capability. -/
def OpenBrain (openRes : Except String Unit)
    (versionRes tokRes : Except String String) : Except String BrainM :=
  match openRes with
  | .error e => .error e
  | .ok _ =>
    match versionRes with
    | .error e => .error e
    | .ok v =>
      if v ≠ "2" then .error ("cannot read version " ++ v ++ " brain")
      else
        match tokRes with
        | .error e => .error e
        | .ok name => .ok ⟨getTokenizer name⟩

end Cobe

namespace Cobe

theorem edgeLoop_length (order : Nat) (tokens : List tokenID) :
    ∀ fuel i spaces prev, (edgeLoop order tokens fuel i spaces prev).length = fuel := by
  intro fuel
  induction fuel with
  | zero => intro i spaces prev; rfl
  | succ m ih =>
    intro i spaces prev
    cases spaces with
    | nil => simp [edgeLoop, ih]
    | cons s rest =>
      simp only [edgeLoop]
      split <;> simp [ih]

theorem window_length (tokens : List tokenID) (i order : Nat)
    (h : i + order ≤ tokens.length) : (window tokens i order).length = order := by
  simp only [window, List.length_take, List.length_drop]
  omega

theorem edgeLoop_lengths (order : Nat) (tokens : List tokenID) :
    ∀ fuel i spaces prev, fuel + i + order = tokens.length + 1 →
      prev.length = order →
      ∀ e ∈ edgeLoop order tokens fuel i spaces prev,
        e.prev.length = order ∧ e.next.length = order := by
  intro fuel
  induction fuel with
  | zero => intro i spaces prev _ _ e he; simp [edgeLoop] at he
  | succ m ih =>
    intro i spaces prev hlen hprev e he
    have hwin : (window tokens i order).length = order :=
      window_length tokens i order (by omega)
    have hrec : m + (i + 1) + order = tokens.length + 1 := by omega
    cases spaces with
    | nil =>
      simp only [edgeLoop, List.mem_cons] at he
      rcases he with rfl | he
      · exact ⟨hprev, hwin⟩
      · exact ih (i + 1) [] _ hrec hwin e he
    | cons s rest =>
      simp only [edgeLoop] at he
      split at he <;> simp only [List.mem_cons] at he <;>
        rcases he with rfl | he
      · exact ⟨hprev, hwin⟩
      · exact ih (i + 1) rest _ hrec hwin e he
      · exact ⟨hprev, hwin⟩
      · exact ih (i + 1) (s :: rest) _ hrec hwin e he

theorem edgeLoop_head_prev (order : Nat) (tokens : List tokenID) :
    ∀ fuel i spaces prev e rest,
      edgeLoop order tokens fuel i spaces prev = e :: rest → e.prev = prev := by
  intro fuel i spaces prev e rest h
  cases fuel with
  | zero => simp [edgeLoop] at h
  | succ m =>
    cases spaces with
    | nil =>
      simp only [edgeLoop, List.cons.injEq] at h
      rw [← h.1]
    | cons s r =>
      simp only [edgeLoop] at h
      split at h <;> simp only [List.cons.injEq] at h <;> rw [← h.1]

theorem edgeLoop_chain (order : Nat) (tokens : List tokenID) :
    ∀ fuel i spaces prev,
      List.Chain' (fun a b => a.next = b.prev)
        (edgeLoop order tokens fuel i spaces prev) := by
  intro fuel
  induction fuel with
  | zero => intro i spaces prev; simp [edgeLoop]
  | succ m ih =>
    intro i spaces prev
    have hhead : ∀ sp, ∀ b ∈ (edgeLoop order tokens m (i + 1) sp
        (window tokens i order)).head?,
        (window tokens i order) = b.prev := by
      intro sp b hb
      cases hl : edgeLoop order tokens m (i + 1) sp (window tokens i order) with
      | nil => rw [hl] at hb; simp at hb
      | cons x xs =>
        rw [hl] at hb
        simp only [List.head?_cons, Option.mem_def, Option.some.injEq] at hb
        rw [← hb]
        exact (edgeLoop_head_prev order tokens m (i + 1) sp _ x xs hl).symm
    cases spaces with
    | nil =>
      simp only [edgeLoop]
      exact List.chain'_cons'.2 ⟨fun b hb => hhead [] b hb, ih (i + 1) [] _⟩
    | cons s rest =>
      simp only [edgeLoop]
      split
      · exact List.chain'_cons'.2 ⟨fun b hb => hhead rest b hb, ih (i + 1) rest _⟩
      · exact List.chain'_cons'.2
          ⟨fun b hb => hhead (s :: rest) b hb, ih (i + 1) (s :: rest) _⟩

end Cobe

namespace Cobe

theorem compactGo_wellSpaced :
    ∀ acc spaces l, wellSpacedFrom false l = true →
      (compactGo acc spaces l).1 = acc ++ removeSpaces l := by
  intro acc spaces l
  induction acc, spaces, l using compactGo.induct with
  | case1 acc spaces =>
    intro _
    simp [compactGo, removeSpaces]
  | case2 acc spaces t =>
    intro hw
    have ht : ¬t = spaceTokenID := by
      intro h
      simp [wellSpacedFrom, h] at hw
    simp [compactGo, removeSpaces, ht]
  | case3 acc spaces t rest ih =>
    intro hw
    have ht : ¬t = spaceTokenID := by
      intro h
      simp [wellSpacedFrom, h] at hw
    have hrest : wellSpacedFrom false rest = true := by
      simp only [wellSpacedFrom, if_neg ht] at hw
      simpa [wellSpacedFrom] using hw
    rw [show compactGo acc spaces (t :: spaceTokenID :: rest) =
        compactGo (acc ++ [t]) (spaces ++ [acc.length + 1]) rest by
      simp [compactGo]]
    rw [ih hrest]
    simp [removeSpaces, ht]
  | case4 acc spaces t s rest hs ih =>
    intro hw
    have ht : ¬t = spaceTokenID := by
      intro h
      simp [wellSpacedFrom, h] at hw
    have hrest : wellSpacedFrom false (s :: rest) = true := by
      simp only [wellSpacedFrom, if_neg ht] at hw
      simpa [wellSpacedFrom, hs] using hw
    rw [show compactGo acc spaces (t :: s :: rest) =
        compactGo (acc ++ [t]) spaces (s :: rest) by
      simp [compactGo, hs]]
    rw [ih hrest]
    simp [removeSpaces, ht]

theorem window_subset (tokens : List tokenID) (i order : Nat) :
    ∀ x ∈ window tokens i order, x ∈ tokens := by
  intro x hx
  exact List.mem_of_mem_drop (List.mem_of_mem_take hx)

theorem edgeLoop_no_sentinel (order : Nat) (tokens : List tokenID)
    (htok : spaceTokenID ∉ tokens) :
    ∀ fuel i spaces prev, spaceTokenID ∉ prev →
      ∀ e ∈ edgeLoop order tokens fuel i spaces prev,
        spaceTokenID ∉ e.prev ∧ spaceTokenID ∉ e.next := by
  intro fuel
  induction fuel with
  | zero => intro i spaces prev _ e he; simp [edgeLoop] at he
  | succ m ih =>
    intro i spaces prev hprev e he
    have hwin : spaceTokenID ∉ window tokens i order := fun hx =>
      htok (window_subset tokens i order _ hx)
    cases spaces with
    | nil =>
      simp only [edgeLoop, List.mem_cons] at he
      rcases he with rfl | he
      · exact ⟨hprev, hwin⟩
      · exact ih (i + 1) [] _ hwin e he
    | cons s rest =>
      simp only [edgeLoop] at he
      split at he <;> simp only [List.mem_cons] at he <;>
        rcases he with rfl | he
      · exact ⟨hprev, hwin⟩
      · exact ih (i + 1) rest _ hwin e he
      · exact ⟨hprev, hwin⟩
      · exact ih (i + 1) (s :: rest) _ hwin e he

end Cobe

namespace Cobe

/-- C1: for order 3 and the worked-example input, `toEdges` returns exactly the
seven expected edges, in order. -/
theorem toEdges_worked_example :
    toEdges 3 [1, 1, 1, 2, spaceTokenID, 3, spaceTokenID, 4, spaceTokenID, 5, 1, 1, 1] =
      some [⟨[1, 1, 1], [1, 1, 2], false⟩,
            ⟨[1, 1, 2], [1, 2, 3], true⟩,
            ⟨[1, 2, 3], [2, 3, 4], true⟩,
            ⟨[2, 3, 4], [3, 4, 5], true⟩,
            ⟨[3, 4, 5], [4, 5, 1], false⟩,
            ⟨[4, 5, 1], [5, 1, 1], false⟩,
            ⟨[5, 1, 1], [1, 1, 1], false⟩] := by
  decide

/-- C3 counterexample: the input `[1, 2]` at order 3 has a compacted stream of
fewer than 4 tokens, yet `toEdges` does not return the empty edge list: the
initial window slice `tokens[0:order]` is out of range (a Go panic, `none`
here). -/
theorem toEdges_short_input_counterexample :
    (compactTokens [1, 2]).length < 3 + 1 ∧ toEdges 3 [1, 2] = none := by
  decide

/-- C3 amended: with exactly `order` compacted tokens (the only case of
"fewer than order+1" that survives the initial slice), `toEdges` returns the
empty edge list. -/
theorem toEdges_exactly_order_tokens (n : Nat) (ids : List tokenID) (h1 : 1 ≤ n)
    (h2 : (compactTokens ids).length = n) : toEdges n ids = some [] := by
  simp [toEdges, h2, edgeLoop]

/-- Witness for C3's amended theorem at order 3 and input `[1, 2, 3]`. -/
theorem toEdges_exactly_order_tokens_witness : toEdges 3 [1, 2, 3] = some [] :=
  toEdges_exactly_order_tokens 3 [1, 2, 3] (by decide) (by decide)

/-- C10: with `m ≥ order` compacted tokens, `toEdges` produces exactly
`m - order` edges. -/
theorem toEdges_edge_count (n : Nat) (ids : List tokenID) (h1 : 1 ≤ n)
    (h2 : n ≤ (compactTokens ids).length) :
    (toEdges n ids).map List.length = some ((compactTokens ids).length - n) := by
  simp [toEdges, h2, edgeLoop_length]

/-- Witness for C10 at the worked example: 10 compacted tokens, order 3,
7 edges. -/
theorem toEdges_edge_count_witness :
    (toEdges 3 [1, 1, 1, 2, spaceTokenID, 3, spaceTokenID, 4, spaceTokenID, 5, 1, 1, 1]).map
        List.length =
      some ((compactTokens
        [1, 1, 1, 2, spaceTokenID, 3, spaceTokenID, 4, spaceTokenID, 5, 1, 1, 1]).length - 3) :=
  toEdges_edge_count 3
    [1, 1, 1, 2, spaceTokenID, 3, spaceTokenID, 4, spaceTokenID, 5, 1, 1, 1]
    (by decide) (by decide)

/-- C8: every edge produced by `toEdges` has `prev` and `next` windows of
length exactly `order`, and consecutive edges are chained:
`e[i].next = e[i+1].prev`. -/
theorem toEdges_window_chain_invariant (n : Nat) (ids : List tokenID)
    (es : List Edge) (h1 : 1 ≤ n) (h : toEdges n ids = some es) :
    (∀ e ∈ es, e.prev.length = n ∧ e.next.length = n) ∧
    List.Chain' (fun a b => a.next = b.prev) es := by
  simp only [toEdges] at h
  by_cases hc : n ≤ (compactTokens ids).length
  · rw [if_pos hc] at h
    have hes : edgeLoop n (compactTokens ids) ((compactTokens ids).length - n) 1
        (compactSpaces ids) (window (compactTokens ids) 0 n) = es := by
      injection h
    subst hes
    refine ⟨?_, edgeLoop_chain n _ _ _ _ _⟩
    intro e he
    exact edgeLoop_lengths n (compactTokens ids) _ 1 _ _ (by omega)
      (window_length _ 0 n (by omega)) e he
  · rw [if_neg hc] at h
    exact absurd h (by simp)

/-- Witness for C8: the second edge of the worked example has windows of
length 3. -/
theorem toEdges_window_chain_invariant_witness :
    (Edge.mk [1, 1, 2] [1, 2, 3] true).prev.length = 3 ∧
    (Edge.mk [1, 1, 2] [1, 2, 3] true).next.length = 3 :=
  (toEdges_window_chain_invariant 3
      [1, 1, 1, 2, spaceTokenID, 3, spaceTokenID, 4, spaceTokenID, 5, 1, 1, 1]
      [⟨[1, 1, 1], [1, 1, 2], false⟩,
       ⟨[1, 1, 2], [1, 2, 3], true⟩,
       ⟨[1, 2, 3], [2, 3, 4], true⟩,
       ⟨[2, 3, 4], [3, 4, 5], true⟩,
       ⟨[3, 4, 5], [4, 5, 1], false⟩,
       ⟨[4, 5, 1], [5, 1, 1], false⟩,
       ⟨[5, 1, 1], [1, 1, 1], false⟩]
      (by decide) (by decide)).1
    (Edge.mk [1, 1, 2] [1, 2, 3] true) (by decide)

/-- C9: `toChain` yields a sequence of length `input + 2*order` whose first
and last `order` entries are the end-of-context sentinel and whose middle is
the input unchanged. -/
theorem toChain_padding (n : Nat) (endId : tokenID) (ids : List tokenID)
    (h : 1 ≤ n) :
    (toChain n endId ids).length = ids.length + 2 * n ∧
    (toChain n endId ids).take n = List.replicate n endId ∧
    (toChain n endId ids).drop (n + ids.length) = List.replicate n endId ∧
    ((toChain n endId ids).drop n).take ids.length = ids := by
  have hassoc : toChain n endId ids =
      List.replicate n endId ++ (ids ++ List.replicate n endId) := by
    simp [toChain]
  have hdropn : (toChain n endId ids).drop n = ids ++ List.replicate n endId := by
    rw [hassoc]
    exact List.drop_left' (by simp)
  refine ⟨?_, ?_, ?_, ?_⟩
  · simp only [toChain, List.length_append, List.length_replicate]
    omega
  · rw [hassoc]
    exact List.take_left' (by simp)
  · have h2 : (toChain n endId ids).drop (n + ids.length) =
        ((toChain n endId ids).drop n).drop ids.length := by
      rw [List.drop_drop]
    rw [h2, hdropn]
    exact List.drop_left' rfl
  · rw [hdropn]
    exact List.take_left' rfl

/-- Witness for C9 at order 2, sentinel 0 and input `[7]`. -/
theorem toChain_padding_witness :
    (toChain 2 0 [7]).length = [7].length + 2 * 2 ∧
    (toChain 2 0 [7]).take 2 = List.replicate 2 0 ∧
    (toChain 2 0 [7]).drop (2 + [7].length) = List.replicate 2 0 ∧
    ((toChain 2 0 [7]).drop 2).take [7].length = [7] :=
  toChain_padding 2 0 [7] (by decide)

/-- C2 counterexample: with two consecutive space sentinels between the
content tokens 1 and 2 (order 1), the compaction records only the first
sentinel and keeps the second as a content entry, so the sentinel appears in
the `next` window of the first edge and the `prev` window of the second. -/
theorem toEdges_consecutive_spaces_counterexample :
    toEdges 1 [1, spaceTokenID, spaceTokenID, 2] =
      some [⟨[1], [spaceTokenID], true⟩, ⟨[spaceTokenID], [2], false⟩] := by
  decide

/-- C2 amended: for inputs in which every space sentinel immediately follows
a content token (no leading sentinel and no two adjacent sentinels — the
stream shape the spec ascribes to tokenizer output), compaction removes
exactly the sentinels, recording each once as a boundary position, and no
produced edge carries the sentinel in its `prev` or `next` window. -/
theorem toEdges_no_sentinel_in_windows (n : Nat) (ids : List tokenID)
    (es : List Edge) (hw : wellSpaced ids = true) (h : toEdges n ids = some es) :
    compactTokens ids = removeSpaces ids ∧
    ∀ e ∈ es, spaceTokenID ∉ e.prev ∧ spaceTokenID ∉ e.next := by
  have hcomp : compactTokens ids = removeSpaces ids := by
    simpa [compactTokens] using compactGo_wellSpaced [] [] ids hw
  refine ⟨hcomp, ?_⟩
  have htok : spaceTokenID ∉ compactTokens ids := by
    rw [hcomp]
    intro hx
    rcases List.mem_filter.1 hx with ⟨-, hq⟩
    simp at hq
  simp only [toEdges] at h
  by_cases hc : n ≤ (compactTokens ids).length
  · rw [if_pos hc] at h
    have hes : edgeLoop n (compactTokens ids) ((compactTokens ids).length - n) 1
        (compactSpaces ids) (window (compactTokens ids) 0 n) = es := by
      injection h
    subst hes
    intro e he
    exact edgeLoop_no_sentinel n _ htok _ 1 _ _
      (fun hx => htok (window_subset _ 0 n _ hx)) e he
  · rw [if_neg hc] at h
    exact absurd h (by simp)

/-- Witness for C2's amended theorem: the second edge of the worked example
carries no sentinel in either window. -/
theorem toEdges_no_sentinel_in_windows_witness :
    spaceTokenID ∉ ([1, 1, 2] : List tokenID) ∧
    spaceTokenID ∉ ([1, 2, 3] : List tokenID) :=
  (toEdges_no_sentinel_in_windows 3
      [1, 1, 1, 2, spaceTokenID, 3, spaceTokenID, 4, spaceTokenID, 5, 1, 1, 1]
      [⟨[1, 1, 1], [1, 1, 2], false⟩,
       ⟨[1, 1, 2], [1, 2, 3], true⟩,
       ⟨[1, 2, 3], [2, 3, 4], true⟩,
       ⟨[2, 3, 4], [3, 4, 5], true⟩,
       ⟨[3, 4, 5], [4, 5, 1], false⟩,
       ⟨[4, 5, 1], [5, 1, 1], false⟩,
       ⟨[5, 1, 1], [1, 1, 1], false⟩]
      (by decide) (by decide)).2
    (Edge.mk [1, 1, 2] [1, 2, 3] true) (by decide)

/-- C4: with an empty vocabulary there are no pivot candidates — the store's
`filterPivots` and stem lookups return nothing, and all five babble draws
return the invalid id 0 — and `Reply`'s `pickPivot` then executes
`rand.Intn(0)`: a run-time panic (`none` in this model), not a returned
string. -/
theorem reply_empty_vocabulary_panics :
    replyCandidates [] [] [0, 0, 0, 0, 0] = [] ∧
    pickPivot (replyCandidates [] [] [0, 0, 0, 0, 0]) 0 = none := by
  decide

/-- C6: learning an input with at most `order` non-space tokens leaves the
graph store untouched — the whole state, hence also the token, node and edge
counts, is unchanged. -/
theorem learn_short_input_noop (g : Graph) (tokens : List String)
    (h : countGoodTokens tokens ≤ g.order) :
    Learn g tokens = g ∧
    (Learn g tokens).tokens.length = g.tokens.length ∧
    (Learn g tokens).nodes.length = g.nodes.length ∧
    (Learn g tokens).edges.length = g.edges.length := by
  have heq : Learn g tokens = g := by simp [Learn, h]
  exact ⟨heq, by rw [heq], by rw [heq], by rw [heq]⟩

/-- Witness for C6: two non-space tokens against an order-2 store. -/
theorem learn_short_input_noop_witness :
    Learn ⟨2, 0, [], [], []⟩ ["a", " ", "b"] = ⟨2, 0, [], [], []⟩ ∧
    (Learn ⟨2, 0, [], [], []⟩ ["a", " ", "b"]).tokens.length =
      (Graph.mk 2 0 [] [] []).tokens.length ∧
    (Learn ⟨2, 0, [], [], []⟩ ["a", " ", "b"]).nodes.length =
      (Graph.mk 2 0 [] [] []).nodes.length ∧
    (Learn ⟨2, 0, [], [], []⟩ ["a", " ", "b"]).edges.length =
      (Graph.mk 2 0 [] [] []).edges.length :=
  learn_short_input_noop ⟨2, 0, [], [], []⟩ ["a", " ", "b"] (by decide)

/-- C7 counterexample: with a supported version and the unrecognized
tokenizer name "unknown", `OpenBrain` does not fail — it succeeds with an
absent (nil) tokenizer capability. -/
theorem openBrain_unknown_tokenizer_counterexample :
    getTokenizer "unknown" = none ∧
    OpenBrain (.ok ()) (.ok "2") (.ok "unknown") = .ok ⟨none⟩ :=
  ⟨by decide, rfl⟩

/-- C7 amended: `OpenBrain` succeeds exactly when the store opens, both
metadata reads succeed and the version is "2"; the tokenizer name never
causes a failure.  On success the brain holds `getTokenizer name`: the
matching capability for a recognized name (case-insensitive "cobe" or
"megahal"), an absent capability otherwise. -/
theorem openBrain_validation_spec :
    (∀ op : Except String Unit, ∀ v tn : Except String String,
        exceptOk (OpenBrain op v tn) = true ↔
          (exceptOk op = true ∧ v = Except.ok "2" ∧ exceptOk tn = true)) ∧
    (∀ name, OpenBrain (.ok ()) (.ok "2") (.ok name) = .ok ⟨getTokenizer name⟩) ∧
    getTokenizer "cobe" = some Tok.cobe ∧
    getTokenizer "MegaHAL" = some Tok.megahal ∧
    getTokenizer "unrecognized" = none := by
  refine ⟨?_, ?_, by decide, by decide, by decide⟩
  · intro op v tn
    cases op with
    | error e => simp [OpenBrain, exceptOk]
    | ok u =>
      cases v with
      | error e => simp [OpenBrain, exceptOk]
      | ok vs =>
        by_cases hv : vs = "2"
        · subst hv
          cases tn with
          | error e => simp [OpenBrain, exceptOk]
          | ok name => simp [OpenBrain, exceptOk]
        · simp [OpenBrain, exceptOk, hv]
  · intro name
    rfl

/-- Witness for C7's amended theorem: opening with tokenizer name "Cobe"
selects the cobe capability. -/
theorem openBrain_validation_spec_witness :
    OpenBrain (.ok ()) (.ok "2") (.ok "Cobe") = .ok ⟨getTokenizer "Cobe"⟩ :=
  openBrain_validation_spec.2.1 "Cobe"

theorem filterMap_id_cons_some {α : Type} (s : α) (rest : List (Option α)) :
    (some s :: rest).filterMap id = s :: rest.filterMap id := by
  simp

theorem filterMap_id_cons_none {α : Type} (rest : List (Option α)) :
    ((none : Option α) :: rest).filterMap id = rest.filterMap id := by
  simp

theorem replyLoopAux_noimprove :
    ∀ l i b bs, (∀ s ∈ l.filterMap id, s ≤ bs) → replyLoopAux l i b bs = b := by
  intro l
  induction l with
  | nil => intro i b bs _; rfl
  | cons hd rest ih =>
    intro i b bs hle
    cases hd with
    | none =>
      rw [filterMap_id_cons_none] at hle
      exact ih (i + 1) b bs hle
    | some s =>
      rw [filterMap_id_cons_some] at hle
      have hs : s ≤ bs := hle s (by simp)
      simp only [replyLoopAux, if_neg (not_lt.2 hs)]
      exact ih (i + 1) b bs fun t ht => hle t (by simp [ht])

theorem replyLoopAux_spec :
    ∀ l i b bs,
      (replyLoopAux l i b bs = none →
        b = none ∧ ∀ s ∈ l.filterMap id, s ≤ bs) ∧
      (∀ k, replyLoopAux l i b bs = some k →
        (b = some k ∧ ∀ s ∈ l.filterMap id, s ≤ bs) ∨
        (∃ m s, k = i + m ∧ l.get? m = some (some s) ∧ bs < s ∧
          (∀ t ∈ l.filterMap id, t ≤ s) ∧
          (∀ j t, j < m → l.get? j = some (some t) → t < s))) := by
  intro l
  induction l with
  | nil =>
    intro i b bs
    exact ⟨fun h => ⟨h, by simp⟩, fun k h => Or.inl ⟨h, by simp⟩⟩
  | cons hd rest ih =>
    intro i b bs
    cases hd with
    | none =>
      constructor
      · intro h
        simp only [replyLoopAux] at h
        have h2 := (ih (i + 1) b bs).1 h
        rw [filterMap_id_cons_none]
        exact h2
      · intro k h
        simp only [replyLoopAux] at h
        rcases (ih (i + 1) b bs).2 k h with ⟨hb, hle⟩ |
          ⟨m, s, hk, hget, hbs, hall, hbefore⟩
        · left
          rw [filterMap_id_cons_none]
          exact ⟨hb, hle⟩
        · right
          refine ⟨m + 1, s, by omega, by simpa using hget, hbs, ?_, ?_⟩
          · rw [filterMap_id_cons_none]
            exact hall
          · intro j t hj hget2
            cases j with
            | zero => simp at hget2
            | succ j2 => exact hbefore j2 t (by omega) (by simpa using hget2)
    | some s0 =>
      by_cases hlt : bs < s0
      · constructor
        · intro h
          simp only [replyLoopAux, if_pos hlt] at h
          exact absurd ((ih (i + 1) (some i) s0).1 h).1 (by simp)
        · intro k h
          simp only [replyLoopAux, if_pos hlt] at h
          rcases (ih (i + 1) (some i) s0).2 k h with ⟨hb, hle⟩ |
            ⟨m, s, hk, hget, hbs, hall, hbefore⟩
          · right
            have hki : i = k := by injection hb
            refine ⟨0, s0, by omega, by simp, hlt, ?_, ?_⟩
            · intro t ht
              rw [filterMap_id_cons_some] at ht
              rcases List.mem_cons.1 ht with rfl | h3
              · exact le_refl t
              · exact hle t h3
            · intro j t hj _
              exact absurd hj (Nat.not_lt_zero j)
          · right
            refine ⟨m + 1, s, by omega, by simpa using hget,
              lt_trans hlt hbs, ?_, ?_⟩
            · intro t ht
              rw [filterMap_id_cons_some] at ht
              rcases List.mem_cons.1 ht with rfl | h3
              · exact le_of_lt hbs
              · exact hall t h3
            · intro j t hj hget2
              cases j with
              | zero =>
                have ht0 : s0 = t := by
                  simp only [List.get?_cons_zero, Option.some.injEq] at hget2
                  exact hget2
                rw [← ht0]
                exact hbs
              | succ j2 => exact hbefore j2 t (by omega) (by simpa using hget2)
      · have hs0 : s0 ≤ bs := not_lt.1 hlt
        constructor
        · intro h
          simp only [replyLoopAux, if_neg hlt] at h
          have h2 := (ih (i + 1) b bs).1 h
          refine ⟨h2.1, ?_⟩
          intro t ht
          rw [filterMap_id_cons_some] at ht
          rcases List.mem_cons.1 ht with rfl | h3
          · exact hs0
          · exact h2.2 t h3
        · intro k h
          simp only [replyLoopAux, if_neg hlt] at h
          rcases (ih (i + 1) b bs).2 k h with ⟨hb, hle⟩ |
            ⟨m, s, hk, hget, hbs, hall, hbefore⟩
          · left
            refine ⟨hb, ?_⟩
            intro t ht
            rw [filterMap_id_cons_some] at ht
            rcases List.mem_cons.1 ht with rfl | h3
            · exact hs0
            · exact hle t h3
          · right
            refine ⟨m + 1, s, by omega, by simpa using hget, hbs, ?_, ?_⟩
            · intro t ht
              rw [filterMap_id_cons_some] at ht
              rcases List.mem_cons.1 ht with rfl | h3
              · exact le_trans hs0 (le_of_lt hbs)
              · exact hall t h3
            · intro j t hj hget2
              cases j with
              | zero =>
                have ht0 : s0 = t := by
                  simp only [List.get?_cons_zero, Option.some.injEq] at hget2
                  exact hget2
                rw [← ht0]
                exact lt_of_le_of_lt hs0 hbs
              | succ j2 => exact hbefore j2 t (by omega) (by simpa using hget2)

/-- C5 counterexample: one candidate is scored (score -2), yet the loop ends
with no best reply — `Reply` would return the "no replies" sentinel — because
`bestScore` starts at -1 rather than below every possible score. -/
theorem replyLoop_scored_but_sentinel_counterexample :
    ([some (-2 : ℚ)].filterMap id).length = 1 ∧ replyLoop [some (-2)] = none := by
  constructor
  · decide
  · decide

/-- C5 amended: the loop keeps the earliest best — a winner's score exceeds
-1 (the initial best score), is at least every scored candidate's score and
strictly exceeds every earlier one — and the sentinel is returned exactly
when no candidate scored strictly above the initial -1, even if candidates
were scored. -/
theorem replyLoop_selection_spec (iters : List (Option ℚ)) :
    (replyLoop iters = none ↔ ∀ s ∈ iters.filterMap id, s ≤ -1) ∧
    (∀ i s, replyLoop iters = some i → iters.get? i = some (some s) →
      -1 < s ∧ (∀ t ∈ iters.filterMap id, t ≤ s) ∧
      (∀ j t, j < i → iters.get? j = some (some t) → t < s)) := by
  constructor
  · constructor
    · intro h
      exact ((replyLoopAux_spec iters 0 none (-1)).1 h).2
    · intro h
      exact replyLoopAux_noimprove iters 0 none (-1) h
  · intro i s hi hs
    rcases (replyLoopAux_spec iters 0 none (-1)).2 i hi with ⟨hb, -⟩ |
      ⟨m, s2, hk, hget, hbs, hall, hbefore⟩
    · exact absurd hb (by simp)
    · have hm : m = i := by omega
      subst hm
      rw [hs] at hget
      have hss : s = s2 := by
        injection hget with h1
        injection h1
      rw [hss]
      exact ⟨hbs, hall, hbefore⟩

/-- Witness for C5's amended theorem: among scores -2, 5, 5 the winner is
the earlier 5, at index 1, and its score exceeds the initial -1. -/
theorem replyLoop_selection_spec_witness :
    replyLoop [some (-2 : ℚ), some 5, some 5] = some 1 ∧ (-1 : ℚ) < 5 :=
  ⟨by decide,
    ((replyLoop_selection_spec [some (-2), some 5, some 5]).2 1 5
      (by decide) (by decide)).1⟩

end Cobe
